import Mathlib

/-!
Verification of the lab7 vector-angle pipeline (`src/lab7.cpp`).

The C++ program reads whitespace-delimited rows of numbers as vectors,
enforces a uniform dimension across the dataset, enumerates all unordered
pairs of distinct vectors, and sorts the pairs by ascending angle.

Modelling conventions:
* `double` is idealised as exact arithmetic: vector elements are rationals
  (`ℚ`), and the transcendental results of `norm`/`theta` live in `ℝ`.
* C++ exceptions become `Except CppError`; `std::logic_error` and
  `std::runtime_error` are the two constructors, carrying their message.
* `std::sort` is modelled by the contract the C++ standard gives it: the
  result is a permutation of the input that is sorted with respect to the
  comparator (`theta_sort_rel` below); the relative order of
  comparator-equivalent elements is unspecified.
-/

namespace Lab7

/-- The element sequence of a `dvec` (`struct dvec : public vector<double>`).
Elements are modelled as exact rationals. -/
abbrev dvec := List ℚ

/-- The two C++ exception types thrown by the program, with their messages. -/
inductive CppError where
  | logicError (msg : String)
  | runtimeError (msg : String)
deriving DecidableEq, Repr

/-- `dvec::assert_compatible`: throws `std::logic_error("mismatched dvec
dimensions")` when the two vectors have different sizes. -/
def assert_compatible (a b : dvec) : Except CppError Unit :=
  if a.length ≠ b.length then .error (.logicError "mismatched dvec dimensions")
  else .ok ()

/-- The accumulation loop body of `dot`: `acc += x * y` over the zipped
elements (both the `views::zip` and the index-loop variant compute this). -/
def dotAux (a b : dvec) : ℚ :=
  (List.zipWith (fun x y => x * y) a b).sum

/-- `dot(a, b)`: checks compatibility, then sums the element-wise products. -/
def dot (a b : dvec) : Except CppError ℚ :=
  match assert_compatible a b with
  | .error e => .error e
  | .ok _ => .ok (dotAux a b)

/-- The value of `dvec::norm()`: `sqrt(dot(*this, *this))`.  The inner `dot`
is applied to the vector and itself, so its compatibility check passes;
`normE` below records that fact against the fallible `dot`. -/
noncomputable def norm (v : dvec) : ℝ :=
  Real.sqrt ((dotAux v v : ℚ) : ℝ)

/-- `dvec::norm()` with the error channel of the inner `dot` kept visible. -/
noncomputable def normE (v : dvec) : Except CppError ℝ :=
  (dot v v).map (fun d => Real.sqrt ((d : ℚ) : ℝ))

/-- `theta(a, b)`: checks compatibility, then returns
`acos(dot(a, b) / (a.norm() * b.norm()))`. -/
noncomputable def theta (a b : dvec) : Except CppError ℝ :=
  match assert_compatible a b with
  | .error e => .error e
  | .ok _ => (dot a b).map (fun d => Real.arccos (((d : ℚ) : ℝ) / (norm a * norm b)))

/-- The angle value used by the `theta_sort` comparator on compatible pairs:
the success value of `theta p.1 p.2`. -/
noncomputable def thetaKey (p : dvec × dvec) : ℝ :=
  Real.arccos (((dotAux p.1 p.2 : ℚ) : ℝ) / (norm p.1 * norm p.2))

/-! ### Ingestion (`ingest_dvecs`)

A line is parsed by `std::istream_iterator<double>`: skip whitespace, read
the longest decimal/scientific literal, repeat; the first position at which
no literal can be read ends the line's vector.  The literal grammar modelled
is the decimal one of `num_get`: optional sign, digits with an optional
decimal point (at least one digit overall), and an optional exponent part —
an `e`/`E` that is not followed by a well-formed exponent makes the whole
extraction fail, as `num_get` accumulates the characters and then fails the
conversion. -/

/-- The whitespace characters recognised by the default C++ locale. -/
def isWs (c : Char) : Bool :=
  c = ' ' ∨ c = '\t' ∨ c = '\n' ∨ c = '\r' ∨ c = Char.ofNat 11 ∨ c = Char.ofNat 12

/-- Numeric value of a digit string (most significant digit first). -/
def digitsToNat (ds : List Char) : Nat :=
  ds.foldl (fun acc c => acc * 10 + (c.toNat - Char.toNat '0')) 0

/-- Consume an optional leading sign; `true` means negative. -/
def parseSign : List Char → Bool × List Char
  | '-' :: cs => (true, cs)
  | '+' :: cs => (false, cs)
  | cs => (false, cs)

/-- Consume the optional exponent part.  Returns the exponent (0 when no
`e`/`E` is present) and the rest, or `none` when an `e`/`E` is present but
not followed by at least one digit (the extraction then fails). -/
def parseExp (cs : List Char) : Option (Int × List Char) :=
  match cs with
  | c :: cs1 =>
    if c = 'e' ∨ c = 'E' then
      let s := parseSign cs1
      let d := s.2.span Char.isDigit
      if d.1.isEmpty then none
      else some (if s.1 then -(digitsToNat d.1 : Int) else (digitsToNat d.1 : Int), d.2)
    else some (0, cs)
  | [] => some (0, [])

/-- Read one floating-point literal from the front of `cs`: value and rest,
or `none` when no literal starts here. -/
def parseNumber (cs : List Char) : Option (ℚ × List Char) :=
  let s := parseSign cs
  let ip := s.2.span Char.isDigit
  let sgn : ℚ := if s.1 then -1 else 1
  match ip.2 with
  | '.' :: cs3 =>
    let fp := cs3.span Char.isDigit
    if ip.1.isEmpty ∧ fp.1.isEmpty then none
    else
      match parseExp fp.2 with
      | none => none
      | some (e, rest) =>
        let mant : ℚ := (digitsToNat ip.1 : ℚ) + (digitsToNat fp.1 : ℚ) / 10 ^ fp.1.length
        some (sgn * mant * (10 : ℚ) ^ e, rest)
  | _ =>
    if ip.1.isEmpty then none
    else
      match parseExp ip.2 with
      | none => none
      | some (e, rest) => some (sgn * (digitsToNat ip.1 : ℚ) * (10 : ℚ) ^ e, rest)

/-- The `istream_iterator<double>` loop: skip whitespace, read a literal,
repeat until a read fails.  Each successful read consumes at least one
character, so `fuel = length + 1` never runs out. -/
def parseNumbers : Nat → List Char → List ℚ
  | 0, _ => []
  | fuel + 1, cs =>
    match parseNumber (cs.dropWhile isWs) with
    | some (q, rest) => q :: parseNumbers fuel rest
    | none => []

/-- The vector a single `getline` line contributes: the sequence read by
`istream_iterator<double>` over that line. -/
def parse_line (line : String) : dvec :=
  parseNumbers (line.length + 1) line.data

/-- The loop of `ingest_dvecs`, with the `output` vector accumulated so far:
parse the line, throw `std::runtime_error("mismatched input vector
dimensions")` when `output` is non-empty and `output[0].size() != v.size()`,
otherwise push and continue. -/
def ingest_aux (output : List dvec) : List String → Except CppError (List dvec)
  | [] => .ok output
  | line :: rest =>
    let v := parse_line line
    if output ≠ [] ∧ (output.headD []).length ≠ v.length then
      .error (.runtimeError "mismatched input vector dimensions")
    else ingest_aux (output ++ [v]) rest

/-- `ingest_dvecs`: the input stream is modelled as its list of lines. -/
def ingest_dvecs (lines : List String) : Except CppError (List dvec) :=
  ingest_aux [] lines

/-! ### Pair enumeration and the sort -/

/-- `pairwise_elts`: the nested iterator loop — for each position, pair its
vector with every later vector, in order. -/
def pairwise_elts (vecs : List dvec) : List (dvec × dvec) :=
  match vecs with
  | [] => []
  | v :: rest => (rest.map (fun w => (v, w))) ++ pairwise_elts rest

/-- The index pairs `(i, j)` with `i < j < n`, in lexicographic order: the
enumeration order contract of the spec (section 4.3), used to characterise
`pairwise_elts`. -/
def indexPairs (n : Nat) : List (Nat × Nat) :=
  (List.range n).flatMap (fun i => (List.range (n - (i + 1))).map (fun k => (i, i + 1 + k)))

/-- Strict lexicographic order on index pairs. -/
def pairLexLT (p q : Nat × Nat) : Prop :=
  p.1 < q.1 ∨ (p.1 = q.1 ∧ p.2 < q.2)

/-- The contract of the `std::sort` call in `theta_sort`: the C++ standard
specifies only that the result is a permutation of the input range that is
sorted with respect to the comparator
`theta(x.first, x.second) < theta(y.first, y.second)` — i.e. no later
element compares strictly below an earlier one.  The relative order of
tied elements is unspecified, so the model is the set of admissible
outputs. -/
def theta_sort_rel (vecs : List dvec) (out : List (dvec × dvec)) : Prop :=
  (pairwise_elts vecs).Perm out ∧
    out.Pairwise (fun x y => ¬ thetaKey y < thetaKey x)

/-- Stability of the sort with respect to ties, as the spec demands it: two
pairs with equal angle that appear at enumeration positions `a < b` appear
in the output in that same relative order. -/
def tie_order_preserved (vecs : List dvec) (out : List (dvec × dvec)) : Prop :=
  ∀ a b : Nat, a < b → b < (pairwise_elts vecs).length →
    thetaKey ((pairwise_elts vecs).getD a ([], [])) =
      thetaKey ((pairwise_elts vecs).getD b ([], [])) →
    ∃ a' b' : Nat, a' < b' ∧ b' < out.length ∧
      out.getD a' ([], []) = (pairwise_elts vecs).getD a ([], []) ∧
      out.getD b' ([], []) = (pairwise_elts vecs).getD b ([], [])

/-! ### Rendering (`operator<<`)

`operator<<` for `dvec` prints `[e0, e1, ..., en-1]`, each element with the
stream's default floating-point formatting: `std::defaultfloat` at the
default precision 6, i.e. printf `%g` with 6 significant digits.  The `%g`
rules modelled below: round the value to 6 significant digits; with decimal
exponent `X` of the rounded value, use fixed notation when `6 > X ≥ -4` and
scientific notation (exponent of at least two digits) otherwise; strip
trailing zeros from the fractional part and drop an empty fractional part.
Rounding acts on the exact rational here; the tie case, which in C++ is
settled by the binary double value, is taken half-up. -/

/-- Number of decimal digits of `n` (1 for 0). -/
def digitLen (n : Nat) : Nat :=
  (Nat.toDigits 10 n).length

/-- `|q|`, written out so that it evaluates by the kernel. -/
def qabs (q : ℚ) : ℚ :=
  if q < 0 then -q else q

/-- Rounding of a non-negative rational to the nearest integer (half up):
`⌊q + 1/2⌋` computed directly on numerator and denominator. -/
def roundQ (q : ℚ) : ℤ :=
  (2 * q.num + (q.den : ℤ)) / (2 * (q.den : ℤ))

/-- The decimal exponent of a non-zero rational: the unique `e` with
`10^e ≤ |q| < 10^(e+1)`. -/
def decExp (q : ℚ) : ℤ :=
  let e : ℤ := (digitLen q.num.natAbs : ℤ) - (digitLen q.den : ℤ)
  if (10 : ℚ) ^ e ≤ qabs q then e else e - 1

/-- Strip trailing `'0'` characters. -/
def stripZeros (ds : List Char) : List Char :=
  (ds.reverse.dropWhile (fun c => c = '0')).reverse

/-- Fixed (`%f`-style) layout of the 6 rounded significant digits `m`
(`10^5 ≤ m < 10^6`) at decimal exponent `e`, trailing zeros stripped. -/
def renderFixed (m : Nat) (e : ℤ) : String :=
  let ds := Nat.toDigits 10 m
  if 0 ≤ e then
    let ip := ds.take (e.toNat + 1)
    let fp := stripZeros (ds.drop (e.toNat + 1))
    if fp.isEmpty then ip.asString else (ip ++ '.' :: fp).asString
  else
    ('0' :: '.' :: (List.replicate (e.natAbs - 1) '0' ++ stripZeros ds)).asString

/-- Scientific (`%e`-style) layout of the 6 rounded significant digits `m`
at decimal exponent `e`, trailing zeros stripped, two-plus-digit
exponent. -/
def renderSci (m : Nat) (e : ℤ) : String :=
  let ds := Nat.toDigits 10 m
  let fp := stripZeros ds.tail
  let mant := if fp.isEmpty then [ds.headD '0'] else ds.headD '0' :: '.' :: fp
  let eds := Nat.toDigits 10 e.natAbs
  let eds2 := if e.natAbs < 10 then '0' :: eds else eds
  (mant ++ 'e' :: (if e < 0 then '-' else '+') :: eds2).asString

/-- One element as the stream prints a `double`: `%g` with 6 significant
digits. -/
def renderQ (q : ℚ) : String :=
  if q = 0 then "0"
  else
    let e0 := decExp q
    let m0 := roundQ (qabs q * (10 : ℚ) ^ ((5 : ℤ) - e0))
    let m : Nat := if m0 = 10 ^ 6 then 10 ^ 5 else m0.toNat
    let e : ℤ := if m0 = 10 ^ 6 then e0 + 1 else e0
    let body := if e < 6 ∧ -4 ≤ e then renderFixed m e else renderSci m e
    if q < 0 then "-" ++ body else body

/-- The element loop of `operator<<`: every element but the last is followed
by `", "`. -/
def renderElems (x : ℚ) : List ℚ → String
  | [] => renderQ x
  | y :: ys => renderQ x ++ ", " ++ renderElems y ys

/-- `operator<<` for `dvec`: `[]` when empty, else the bracketed
comma-separated element list. -/
def render_dvec (v : dvec) : String :=
  match v with
  | [] => "[]"
  | x :: xs => "[" ++ renderElems x xs ++ "]"

/-- The bracket/comma characters of the rendering are ignored by reading
them as token separators. -/
def subChar (c : Char) : Char :=
  if c = '[' ∨ c = ']' ∨ c = ',' then ' ' else c

/-- The claim's re-parsing pre-step: commas and brackets are ignored, i.e.
read as token separators. -/
def ignore_brackets (s : String) : String :=
  ⟨s.data.map subChar⟩

/-- The character stream that the bracket-stripped rendering of a non-empty
vector produces, per token/value pair: each token, separated by the two
spaces left by `", "`, with the final space left by `]`. -/
def chainData : List (List Char × ℚ) → List Char
  | [] => [' ']
  | [p] => p.1 ++ [' ']
  | p :: rest => p.1 ++ ' ' :: ' ' :: chainData rest

theorem dot_self_ok (v : dvec) : dot v v = .ok (dotAux v v) := by
  simp [dot, assert_compatible]

theorem theta_ok (a b : dvec) (h : a.length = b.length) :
    theta a b = .ok (thetaKey (a, b)) := by
  simp [theta, assert_compatible, h, dot, thetaKey, Except.map]

theorem dotAux_eq_sum (a b : dvec) (h : a.length = b.length) :
    dotAux a b = ∑ i ∈ Finset.range a.length, a.getD i 0 * b.getD i 0 := by
  induction a generalizing b with
  | nil => simp [dotAux]
  | cons x xs ih =>
    cases b with
    | nil => simp at h
    | cons y ys =>
      have h' : xs.length = ys.length := by simpa using h
      have : dotAux (x :: xs) (y :: ys) = x * y + dotAux xs ys := by
        simp [dotAux]
      rw [this, ih ys h']
      rw [List.length_cons, Finset.sum_range_succ']
      simp [add_comm]

theorem dotAux_comm (a b : dvec) : dotAux a b = dotAux b a := by
  unfold dotAux
  rw [List.zipWith_comm_of_comm _ (fun x y => mul_comm x y)]

theorem zipWith_mul_self (v : dvec) :
    List.zipWith (fun x y => x * y) v v = v.map (fun x => x * x) := by
  induction v with
  | nil => rfl
  | cons x xs ih => simp [ih]

theorem dotAux_self_pos (v : dvec) (h : ∃ x ∈ v, x ≠ 0) : 0 < dotAux v v := by
  obtain ⟨x, hx, hx0⟩ := h
  have hmem : x * x ∈ v.map (fun x => x * x) := List.mem_map_of_mem _ hx
  have hle : x * x ≤ (v.map (fun x => x * x)).sum :=
    List.single_le_sum (by simp [mul_self_nonneg]) _ hmem
  have hpos : 0 < x * x := mul_self_pos.mpr hx0
  calc (0 : ℚ) < x * x := hpos
    _ ≤ (v.map (fun x => x * x)).sum := hle
    _ = dotAux v v := by rw [dotAux, zipWith_mul_self]

/-- C5: `dot` and `theta` on vectors of different lengths both fail with the
dimension-mismatch error (no truncation or padding); on equal lengths `dot`
returns the sum over all indices of `a[i] * b[i]`. -/
theorem C5_dot_theta_dimension_mismatch : ∀ a b : dvec,
    (a.length ≠ b.length →
      dot a b = .error (.logicError "mismatched dvec dimensions") ∧
      theta a b = .error (.logicError "mismatched dvec dimensions")) ∧
    (a.length = b.length →
      dot a b = .ok (∑ i ∈ Finset.range a.length, a.getD i 0 * b.getD i 0)) := by
  intro a b
  refine ⟨fun h => ⟨?_, ?_⟩, fun h => ?_⟩
  · simp [dot, assert_compatible, h]
  · simp [theta, assert_compatible, h]
  · simp [dot, assert_compatible, h, dotAux_eq_sum a b h]

theorem C5_dot_theta_dimension_mismatch_witness :
    dot [1, 2] [3] = .error (.logicError "mismatched dvec dimensions") ∧
    theta [1, 2] [3] = .error (.logicError "mismatched dvec dimensions") ∧
    dot [1, 2] [3, 4] = .ok 11 := by
  refine ⟨(C5_dot_theta_dimension_mismatch [1, 2] [3]).1 (by decide) |>.1,
          (C5_dot_theta_dimension_mismatch [1, 2] [3]).1 (by decide) |>.2, ?_⟩
  have h := (C5_dot_theta_dimension_mismatch [1, 2] [3, 4]).2 (by decide)
  rw [h]
  norm_num [Finset.sum_range_succ]

/-- C6: `norm` never fails — the fallible `dot v v` inside it always
succeeds — and equals the square root of `dot(v, v)`, which is non-negative;
the empty vector has norm 0. -/
theorem C6_norm_never_fails : ∀ v : dvec,
    normE v = .ok (norm v) ∧
    norm v = Real.sqrt ((dotAux v v : ℚ) : ℝ) ∧
    0 ≤ norm v ∧
    norm ([] : dvec) = 0 := by
  intro v
  refine ⟨?_, rfl, Real.sqrt_nonneg _, ?_⟩
  · simp [normE, dot_self_ok, Except.map, norm]
  · simp [norm, dotAux]

/-- C7: on equal-length vectors with non-zero norms, `theta` is symmetric. -/
theorem C7_theta_symm : ∀ a b : dvec, a.length = b.length →
    norm a ≠ 0 → norm b ≠ 0 → theta a b = theta b a := by
  intro a b h _ _
  rw [theta_ok a b h, theta_ok b a h.symm]
  simp only [thetaKey, dotAux_comm a b, mul_comm (norm a) (norm b)]

theorem C7_theta_symm_witness :
    norm ([1] : dvec) ≠ 0 ∧ norm ([2] : dvec) ≠ 0 ∧
    theta [1] [2] = theta [2] [1] := by
  have h1 : norm ([1] : dvec) ≠ 0 := by
    refine ne_of_gt (Real.sqrt_pos.mpr ?_)
    norm_num [dotAux]
  have h2 : norm ([2] : dvec) ≠ 0 := by
    refine ne_of_gt (Real.sqrt_pos.mpr ?_)
    norm_num [dotAux]
  exact ⟨h1, h2, C7_theta_symm [1] [2] rfl h1 h2⟩

/-- C8: for a vector with a non-zero component, the angle of the vector with
itself is exactly 0. -/
theorem C8_theta_self_zero : ∀ v : dvec, (∃ x ∈ v, x ≠ 0) →
    theta v v = .ok 0 := by
  intro v hv
  have hd : 0 < dotAux v v := dotAux_self_pos v hv
  have hdR : (0 : ℝ) < ((dotAux v v : ℚ) : ℝ) := by exact_mod_cast hd
  rw [theta_ok v v rfl]
  have hsq : norm v * norm v = ((dotAux v v : ℚ) : ℝ) :=
    Real.mul_self_sqrt hdR.le
  have hkey : thetaKey (v, v) = 0 := by
    rw [thetaKey, hsq, div_self hdR.ne.symm, Real.arccos_one]
  rw [hkey]

theorem C8_theta_self_zero_witness :
    (∃ x ∈ ([1] : dvec), x ≠ 0) ∧ theta [1] [1] = .ok 0 :=
  ⟨by decide, C8_theta_self_zero [1] (by decide)⟩

theorem indexPairs_succ (n : Nat) :
    indexPairs (n + 1) =
      ((List.range n).map (fun k => (0, 1 + k))) ++
        (indexPairs n).map (fun p => (p.1 + 1, p.2 + 1)) := by
  unfold indexPairs
  rw [List.range_succ_eq_map, List.flatMap_cons, List.flatMap_map, List.map_flatMap]
  congr 1
  apply List.flatMap_congr
  intro a _
  simp only [Nat.succ_eq_add_one]
  have hsub : n + 1 - (a + 1 + 1) = n - (a + 1) := by omega
  rw [hsub, List.map_map]
  apply List.map_congr_left
  intro k _
  simp [Prod.ext_iff]
  omega

theorem map_getD_range {α β : Type} (l : List α) (f : α → β) (d : α) :
    (List.range l.length).map (fun k => f (l.getD k d)) = l.map f := by
  induction l with
  | nil => rfl
  | cons x xs ih =>
    simp only [List.length_cons, List.range_succ_eq_map, List.map_cons, List.map_map,
      Function.comp_def, List.getD_cons_zero, List.getD_cons_succ]
    rw [ih]

theorem pairwise_elts_eq_map (vecs : List dvec) :
    pairwise_elts vecs =
      (indexPairs vecs.length).map
        (fun p => (vecs.getD p.1 [], vecs.getD p.2 [])) := by
  induction vecs with
  | nil => rfl
  | cons v rest ih =>
    rw [List.length_cons, indexPairs_succ, List.map_append, List.map_map, List.map_map]
    show pairwise_elts (v :: rest) = _
    rw [pairwise_elts]
    have h1 : (rest.map (fun w => (v, w))) =
        (List.range rest.length).map
          ((fun p : Nat × Nat => ((v :: rest).getD p.1 [], (v :: rest).getD p.2 [])) ∘
            fun k => (0, 1 + k)) := by
      rw [← map_getD_range rest (fun w => (v, w)) []]
      apply List.map_congr_left
      intro k _
      simp only [Function.comp_apply, List.getD_cons_zero]
      rw [Nat.add_comm 1 k, List.getD_cons_succ]
    have h2 : pairwise_elts rest =
        (indexPairs rest.length).map
          ((fun p : Nat × Nat => ((v :: rest).getD p.1 [], (v :: rest).getD p.2 [])) ∘
            fun p => (p.1 + 1, p.2 + 1)) := by
      rw [ih]
      apply List.map_congr_left
      intro p _
      simp only [Function.comp_apply, List.getD_cons_succ]
    rw [h1, h2]

theorem indexPairs_two_mul_length (n : Nat) :
    2 * (indexPairs n).length = n * (n - 1) := by
  induction n with
  | zero => rfl
  | succ m ih =>
    have hlen : (indexPairs (m + 1)).length = m + (indexPairs m).length := by
      rw [indexPairs_succ]
      simp
    rw [hlen, Nat.succ_sub_one]
    cases m with
    | zero => simp [indexPairs]
    | succ k =>
      rw [Nat.succ_sub_one] at ih
      have hring : (k + 1 + 1) * (k + 1) = 2 * (k + 1) + (k + 1) * k := by ring
      linarith [ih, hring]

theorem mem_indexPairs (n i j : Nat) :
    (i, j) ∈ indexPairs n ↔ i < j ∧ j < n := by
  simp only [indexPairs, List.mem_flatMap, List.mem_map, List.mem_range, Prod.mk.injEq]
  constructor
  · rintro ⟨a, ha, k, hk, rfl, rfl⟩
    omega
  · rintro ⟨hij, hjn⟩
    exact ⟨i, by omega, j - i - 1, by omega, rfl, by omega⟩

theorem indexPairs_pairwise_lex (n : Nat) :
    (indexPairs n).Pairwise pairLexLT := by
  induction n with
  | zero => exact List.Pairwise.nil
  | succ m ih =>
    rw [indexPairs_succ, List.pairwise_append]
    refine ⟨?_, ?_, ?_⟩
    · refine List.Pairwise.map _ ?_ (List.pairwise_lt_range m)
      intro a b hab
      exact Or.inr ⟨rfl, by omega⟩
    · refine List.Pairwise.map _ ?_ ih
      intro p q hpq
      rcases hpq with h | ⟨h1, h2⟩
      · exact Or.inl (by omega)
      · exact Or.inr ⟨by omega, by omega⟩
    · rintro x hx y hy
      simp only [List.mem_map, List.mem_range] at hx hy
      obtain ⟨k, _, rfl⟩ := hx
      obtain ⟨p, _, rfl⟩ := hy
      exact Or.inl (by omega)

theorem headD_append_of_ne_nil {α : Type} (acc : List α) (l : List α) (d : α)
    (h : acc ≠ []) : (acc ++ l).headD d = acc.headD d := by
  cases acc with
  | nil => exact absurd rfl h
  | cons x xs => rfl

theorem ingest_aux_all_ok (lines : List String) : ∀ acc : List dvec, acc ≠ [] →
    (∀ l ∈ lines, (parse_line l).length = (acc.headD []).length) →
    ingest_aux acc lines = .ok (acc ++ lines.map parse_line) := by
  induction lines with
  | nil => intro acc _ _; simp [ingest_aux]
  | cons l rest ih =>
    intro acc hne h
    have hv : (parse_line l).length = (acc.headD []).length := h l (by simp)
    rw [ingest_aux, if_neg (by simp [hv])]
    rw [ih (acc ++ [parse_line l]) (by simp)]
    · simp
    · intro l' hl'
      rw [headD_append_of_ne_nil acc _ [] hne]
      exact h l' (List.mem_cons_of_mem l hl')

theorem ingest_aux_err_of_exists (lines : List String) : ∀ acc : List dvec,
    acc ≠ [] →
    (∃ l ∈ lines, (parse_line l).length ≠ (acc.headD []).length) →
    ingest_aux acc lines = .error (.runtimeError "mismatched input vector dimensions") := by
  induction lines with
  | nil =>
    rintro acc _ ⟨l, hl, _⟩
    simp at hl
  | cons l rest ih =>
    rintro acc hne ⟨l', hl', hmis⟩
    by_cases h0 : (parse_line l).length = (acc.headD []).length
    · rw [ingest_aux, if_neg (by simp [h0])]
      have hl'' : l' ∈ rest := by
        rcases List.mem_cons.mp hl' with rfl | h
        · exact absurd h0 hmis
        · exact h
      refine ih (acc ++ [parse_line l]) (by simp) ⟨l', hl'', ?_⟩
      rw [headD_append_of_ne_nil acc _ [] hne]
      exact hmis
    · rw [ingest_aux, if_pos ⟨hne, Ne.symm h0⟩]

/-- The complete behaviour of `ingest_dvecs`: if every line's parsed vector
has the dimension of the first line's, the whole line list is returned in
order; otherwise the dimension-mismatch error is thrown. -/
theorem ingest_dvecs_eq (lines : List String) :
    ingest_dvecs lines =
      if ∀ l ∈ lines, (parse_line l).length = (parse_line (lines.headD "")).length
      then .ok (lines.map parse_line)
      else .error (.runtimeError "mismatched input vector dimensions") := by
  cases lines with
  | nil => simp [ingest_dvecs, ingest_aux]
  | cons l₀ rest =>
    have hstep : ingest_dvecs (l₀ :: rest) = ingest_aux [parse_line l₀] rest := by
      rw [ingest_dvecs, ingest_aux, if_neg (by simp)]
      rfl
    by_cases h : ∀ l ∈ l₀ :: rest, (parse_line l).length = (parse_line ((l₀ :: rest).headD "")).length
    · rw [if_pos h, hstep, ingest_aux_all_ok rest [parse_line l₀] (by simp)]
      · simp
      · intro l hl
        exact h l (List.mem_cons_of_mem l₀ hl)
    · rw [if_neg h, hstep]
      apply ingest_aux_err_of_exists rest [parse_line l₀] (by simp)
      push_neg at h
      obtain ⟨l, hl, hmis⟩ := h
      rcases List.mem_cons.mp hl with rfl | hlr
      · exact absurd rfl hmis
      · exact ⟨l, hlr, by simpa using hmis⟩

/-- C3: ingestion either returns all parsed vectors in input order, all of
the first vector's dimension, or fails with the dimension-mismatch error at
the first line whose parsed dimension differs from the first line's; it
never returns a mixed-dimension sequence. -/
theorem C3_ingest_uniform_or_mismatch : ∀ lines : List String,
    (∃ vs, ingest_dvecs lines = .ok vs ∧ vs = lines.map parse_line ∧
      ∀ v ∈ vs, v.length = (vs.headD []).length) ∨
    (ingest_dvecs lines = .error (.runtimeError "mismatched input vector dimensions") ∧
      ∃ k, k < lines.length ∧
        (parse_line (lines.getD k "")).length ≠ (parse_line (lines.getD 0 "")).length ∧
        ∀ j < k, (parse_line (lines.getD j "")).length = (parse_line (lines.getD 0 "")).length) := by
  intro lines
  by_cases h : ∀ l ∈ lines, (parse_line l).length = (parse_line (lines.headD "")).length
  · left
    refine ⟨lines.map parse_line, by rw [ingest_dvecs_eq, if_pos h], rfl, ?_⟩
    intro v hv
    obtain ⟨l, hl, rfl⟩ := List.mem_map.mp hv
    rw [h l hl]
    cases lines with
    | nil => simp at hl
    | cons l₀ rest => rfl
  · right
    refine ⟨by rw [ingest_dvecs_eq, if_neg h], ?_⟩
    push_neg at h
    obtain ⟨l, hl, hmis⟩ := h
    obtain ⟨i, hi, rfl⟩ := List.mem_iff_getElem.mp hl
    have hd0 : lines.headD "" = lines.getD 0 "" := by
      cases lines with
      | nil => rfl
      | cons a b => rfl
    have hQ : ∃ k, k < lines.length ∧
        (parse_line (lines.getD k "")).length ≠ (parse_line (lines.getD 0 "")).length := by
      refine ⟨i, hi, ?_⟩
      rw [List.getD_eq_getElem lines "" hi, ← hd0]
      exact hmis
    classical
    let k := Nat.find hQ
    obtain ⟨hk_lt, hk_mis⟩ := Nat.find_spec hQ
    refine ⟨k, hk_lt, hk_mis, ?_⟩
    intro j hj
    by_contra hne
    exact absurd (Nat.find_min hQ hj ⟨by omega, hne⟩) (by simp)

/-- C10: a line with no leading numeric token parses to the empty vector
(it is not skipped); if the first line is such a line, any later line with
numeric tokens triggers the dimension mismatch, and if such a line follows a
non-empty first vector, ingestion likewise fails. -/
theorem C10_empty_lines_not_skipped :
    parse_line "" = [] ∧
    parse_line "abc 1 2" = [] ∧
    (∀ lines : List String, parse_line (lines.headD "") = [] →
      (∃ l ∈ lines, parse_line l ≠ []) →
      ingest_dvecs lines = .error (.runtimeError "mismatched input vector dimensions")) ∧
    (∀ (l₀ : String) (rest : List String), parse_line l₀ ≠ [] →
      (∃ l ∈ rest, parse_line l = []) →
      ingest_dvecs (l₀ :: rest) = .error (.runtimeError "mismatched input vector dimensions")) := by
  refine ⟨rfl, rfl, ?_, ?_⟩
  · intro lines hhead ⟨l, hl, hne⟩
    rw [ingest_dvecs_eq, if_neg]
    intro hall
    have := hall l hl
    rw [hhead] at this
    exact hne (List.length_eq_zero.mp this)
  · intro l₀ rest hne ⟨l, hl, hempty⟩
    rw [ingest_dvecs_eq, if_neg]
    intro hall
    have := hall l (List.mem_cons_of_mem l₀ hl)
    rw [hempty] at this
    have : (parse_line l₀).length = 0 := by simpa using this.symm
    exact hne (List.length_eq_zero.mp this)

theorem C10_empty_lines_not_skipped_witness :
    ingest_dvecs ["", "1 2"] = .error (.runtimeError "mismatched input vector dimensions") ∧
    ingest_dvecs ["1 2", ""] = .error (.runtimeError "mismatched input vector dimensions") := by
  constructor
  · exact C10_empty_lines_not_skipped.2.2.1 ["", "1 2"] rfl
      ⟨"1 2", by simp, by decide⟩
  · exact C10_empty_lines_not_skipped.2.2.2 "1 2" [""] (by decide)
      ⟨"", by simp, rfl⟩

/-- C4: `pairwise_elts` returns exactly `N*(N-1)/2` pairs — one per index
pair `(i, j)` with `i < j`, each exactly once, in lexicographic order (the
output equals the lexicographic index-pair list mapped through the input),
and no index is paired with itself (`i < j` throughout). -/
theorem C4_pairwise_elts_enumeration : ∀ vecs : List dvec,
    (pairwise_elts vecs).length = vecs.length * (vecs.length - 1) / 2 ∧
    pairwise_elts vecs =
      (indexPairs vecs.length).map
        (fun p => (vecs.getD p.1 [], vecs.getD p.2 [])) ∧
    (∀ i j : Nat, (i, j) ∈ indexPairs vecs.length ↔ i < j ∧ j < vecs.length) ∧
    (indexPairs vecs.length).Pairwise pairLexLT := by
  intro vecs
  refine ⟨?_, pairwise_elts_eq_map vecs, mem_indexPairs vecs.length,
    indexPairs_pairwise_lex vecs.length⟩
  rw [pairwise_elts_eq_map vecs, List.length_map]
  have := indexPairs_two_mul_length vecs.length
  omega

/-- C1: any output admitted by the `std::sort` contract in `theta_sort` is a
permutation of the `pairwise_elts` sequence whose angles are non-decreasing
from the first pair to the last. -/
theorem C1_theta_sort_sorted_perm : ∀ (vecs : List dvec) (out : List (dvec × dvec)),
    (∀ v ∈ vecs, v.length = (vecs.headD []).length) →
    theta_sort_rel vecs out →
    (pairwise_elts vecs).Perm out ∧
    ∀ i j : Nat, i ≤ j → j < out.length →
      thetaKey (out.getD i ([], [])) ≤ thetaKey (out.getD j ([], [])) := by
  rintro vecs out _ ⟨hperm, hsorted⟩
  refine ⟨hperm, ?_⟩
  intro i j hij hj
  rcases Nat.eq_or_lt_of_le hij with rfl | hlt
  · exact le_refl _
  · have hi : i < out.length := lt_trans hlt hj
    have hnot := List.pairwise_iff_getElem.mp hsorted i j hi hj hlt
    rw [List.getD_eq_getElem out ([], []) hi, List.getD_eq_getElem out ([], []) hj]
    exact not_lt.mp hnot

theorem C1_theta_sort_sorted_perm_witness :
    theta_sort_rel [[1], [1]] [([1], [1])] ∧
    (pairwise_elts [[1], [1]]).Perm [([1], [1])] ∧
    (∀ i j : Nat, i ≤ j → j < ([([1], [1])] : List (dvec × dvec)).length →
      thetaKey (([([1], [1])] : List (dvec × dvec)).getD i ([], [])) ≤
        thetaKey (([([1], [1])] : List (dvec × dvec)).getD j ([], []))) := by
  have hrel : theta_sort_rel [[1], [1]] [([1], [1])] := by
    constructor
    · exact List.Perm.refl _
    · simp
  have h := C1_theta_sort_sorted_perm [[1], [1]] [([1], [1])] (by decide) hrel
  exact ⟨hrel, h.1, h.2⟩

theorem norm_single_of_nonneg (a : ℚ) (ha : 0 ≤ a) : norm [a] = (a : ℝ) := by
  have h : dotAux [a] [a] = a * a := by simp [dotAux]
  rw [norm, h]
  push_cast
  exact Real.sqrt_mul_self (by exact_mod_cast ha)

theorem thetaKey_single_pos (a b : ℚ) (ha : 0 < a) (hb : 0 < b) :
    thetaKey ([a], [b]) = 0 := by
  have h : dotAux [a] [b] = a * b := by simp [dotAux]
  have haR : (0 : ℝ) < (a : ℝ) := by exact_mod_cast ha
  have hbR : (0 : ℝ) < (b : ℝ) := by exact_mod_cast hb
  show Real.arccos (((dotAux [a] [b] : ℚ) : ℝ) / (norm [a] * norm [b])) = 0
  rw [h, norm_single_of_nonneg a ha.le, norm_single_of_nonneg b hb.le]
  push_cast
  rw [div_self (by positivity), Real.arccos_one]

theorem pe_V3 :
    pairwise_elts [[1], [2], [3]] = [([1], [2]), ([1], [3]), ([2], [3])] := rfl

theorem keys_V3_zero : ∀ p ∈ pairwise_elts [[1], [2], [3]], thetaKey p = 0 := by
  intro p hp
  rw [pe_V3] at hp
  rcases List.mem_cons.mp hp with rfl | hp
  · exact thetaKey_single_pos 1 2 (by norm_num) (by norm_num)
  rcases List.mem_cons.mp hp with rfl | hp
  · exact thetaKey_single_pos 1 3 (by norm_num) (by norm_num)
  rcases List.mem_cons.mp hp with rfl | hp
  · exact thetaKey_single_pos 2 3 (by norm_num) (by norm_num)
  · simp at hp

theorem rel_V3_of_perm (out : List (dvec × dvec))
    (hperm : (pairwise_elts [[1], [2], [3]]).Perm out) :
    theta_sort_rel [[1], [2], [3]] out := by
  refine ⟨hperm, List.pairwise_iff_getElem.mpr ?_⟩
  intro i j hi hj _
  rw [keys_V3_zero _ (hperm.symm.subset (List.getElem_mem hi)),
    keys_V3_zero _ (hperm.symm.subset (List.getElem_mem hj))]
  exact lt_irrefl 0

/-- C2 counterexample: on the collinear input `[[1], [2], [3]]` every pair
has angle 0, and the fully reversed pair order satisfies the `std::sort`
contract of `theta_sort` while violating enumeration-order ties. -/
theorem C2_counterexample_reversed_ties :
    theta_sort_rel [[1], [2], [3]] [([2], [3]), ([1], [3]), ([1], [2])] ∧
    ¬ tie_order_preserved [[1], [2], [3]] [([2], [3]), ([1], [3]), ([1], [2])] := by
  constructor
  · exact rel_V3_of_perm _ (by rw [pe_V3]; decide)
  · intro hpres
    have hkey : thetaKey ((pairwise_elts [[1], [2], [3]]).getD 0 ([], [])) =
        thetaKey ((pairwise_elts [[1], [2], [3]]).getD 1 ([], [])) := by
      rw [keys_V3_zero _ (by rw [pe_V3]; simp),
        keys_V3_zero _ (by rw [pe_V3]; simp)]
    obtain ⟨a', b', hab, hb', ha'eq, hb'eq⟩ :=
      hpres 0 1 (by norm_num) (by rw [pe_V3]; norm_num) hkey
    rw [pe_V3] at ha'eq hb'eq
    simp only [List.length_cons, List.length_nil] at hb'
    have ha2 : a' ≤ 1 := by omega
    interval_cases a'
    · simp at ha'eq
    · simp at ha'eq

/-- C2 amended: the relative order of equal-angle pairs in the output of
`theta_sort` is not determined — on the same input both the enumeration
order and the reversed order satisfy the sort's contract. -/
theorem C2_amended_tie_order_unspecified :
    theta_sort_rel [[1], [2], [3]] [([1], [2]), ([1], [3]), ([2], [3])] ∧
    theta_sort_rel [[1], [2], [3]] [([2], [3]), ([1], [3]), ([1], [2])] ∧
    ([([1], [2]), ([1], [3]), ([2], [3])] : List (dvec × dvec)) ≠
      [([2], [3]), ([1], [3]), ([1], [2])] := by
  refine ⟨rel_V3_of_perm _ (by rw [pe_V3]), rel_V3_of_perm _ (by rw [pe_V3]; decide), by decide⟩

/-! ### The rendering round-trip (C9)

The lemmas below show that the bracket-stripped rendering of a vector
re-parses through `parse_line` as the concatenation of its per-element
tokens: a fully-consumed token followed by a space parses the same with the
rest of the stream attached (`parseNumber_append`), and the rendered stream
is exactly the tokens joined by the spaces left by `[`, `", "` and `]`
(`ignore_render_data`). -/

theorem parseSign_other (c : Char) (h1 : c ≠ '-') (h2 : c ≠ '+') (x : List Char) :
    parseSign (c :: x) = (false, c :: x) := by
  unfold parseSign
  split
  · rename_i heq; injection heq with h _; exact absurd h h1
  · rename_i heq; injection heq with h _; exact absurd h h2
  · rfl

theorem parseSign_append (c : Char) (t u : List Char) :
    parseSign (c :: t ++ u) = ((parseSign (c :: t)).1, (parseSign (c :: t)).2 ++ u) := by
  by_cases h1 : c = '-'
  · subst h1; rfl
  by_cases h2 : c = '+'
  · subst h2; rfl
  rw [show c :: t ++ u = c :: (t ++ u) from rfl, parseSign_other c h1 h2,
    parseSign_other c h1 h2]
  rfl

theorem takeWhile_append_not (p : Char → Bool) (t : List Char) (c : Char) (u : List Char)
    (hc : p c = false) :
    (t ++ c :: u).takeWhile p = t.takeWhile p := by
  induction t with
  | nil => simp [List.takeWhile_cons, hc]
  | cons a t' ih =>
    rw [List.cons_append, List.takeWhile_cons, List.takeWhile_cons]
    cases p a <;> simp [ih]

theorem dropWhile_append_not (p : Char → Bool) (t : List Char) (c : Char) (u : List Char)
    (hc : p c = false) :
    (t ++ c :: u).dropWhile p = t.dropWhile p ++ c :: u := by
  induction t with
  | nil => simp [List.dropWhile_cons, hc]
  | cons a t' ih =>
    rw [List.cons_append, List.dropWhile_cons, List.dropWhile_cons]
    cases p a <;> simp [ih]

theorem span_append_not (p : Char → Bool) (t : List Char) (c : Char) (u : List Char)
    (hc : p c = false) :
    (t ++ c :: u).span p = ((t.span p).1, (t.span p).2 ++ c :: u) := by
  simp [List.span_eq_take_drop, takeWhile_append_not p t c u hc,
    dropWhile_append_not p t c u hc]

theorem parseNumber_nil : parseNumber [] = none := rfl

theorem parseExp_not_e (c : Char) (cs : List Char) (h : ¬(c = 'e' ∨ c = 'E')) :
    parseExp (c :: cs) = some (0, c :: cs) := by
  simp only [parseExp]
  rw [if_neg h]

theorem parseExp_append_full (x : List Char) (e : Int) (u : List Char)
    (h : parseExp x = some (e, [])) :
    parseExp (x ++ ' ' :: u) = some (e, ' ' :: u) := by
  cases x with
  | nil =>
    have he : e = 0 := by
      have : parseExp ([] : List Char) = some (0, []) := rfl
      rw [this] at h
      injection h with h'
      exact (Prod.mk.injEq _ _ _ _ ▸ h').1.symm
    subst he
    exact parseExp_not_e ' ' u (by decide)
  | cons c x' =>
    by_cases hce : c = 'e' ∨ c = 'E'
    · rw [show (c :: x') ++ ' ' :: u = c :: (x' ++ ' ' :: u) from rfl]
      simp only [parseExp] at h ⊢
      rw [if_pos hce] at h ⊢
      cases x' with
      | nil =>
        simp [parseSign, List.span_eq_take_drop] at h
      | cons c2 x'' =>
        rw [parseSign_append c2 x'' (' ' :: u)] at *
        rw [span_append_not Char.isDigit ((parseSign (c2 :: x'')).2) ' ' u (by decide)]
        by_cases hd : (((parseSign (c2 :: x'')).2.span Char.isDigit).1).isEmpty
        · rw [if_pos hd] at h; cases h
        · rw [if_neg hd] at h ⊢
          injection h with h'
          have h1 := (Prod.mk.injEq _ _ _ _ ▸ h').1
          have h2 := (Prod.mk.injEq _ _ _ _ ▸ h').2
          rw [h1, h2]
          rfl
    · rw [parseExp_not_e c x' hce] at h
      injection h with h'
      have h2 := (Prod.mk.injEq _ _ _ _ ▸ h').2
      cases h2

theorem parseSign_append_fst (c : Char) (t u : List Char) :
    (parseSign (c :: t ++ u)).1 = (parseSign (c :: t)).1 := by
  rw [parseSign_append]

theorem parseSign_append_snd (c : Char) (t u : List Char) :
    (parseSign (c :: t ++ u)).2 = (parseSign (c :: t)).2 ++ u := by
  rw [parseSign_append]

theorem span_append_not_fst (p : Char → Bool) (t : List Char) (c : Char) (u : List Char)
    (hc : p c = false) :
    ((t ++ c :: u).span p).1 = (t.span p).1 := by
  rw [span_append_not p t c u hc]

theorem span_append_not_snd (p : Char → Bool) (t : List Char) (c : Char) (u : List Char)
    (hc : p c = false) :
    ((t ++ c :: u).span p).2 = (t.span p).2 ++ c :: u := by
  rw [span_append_not p t c u hc]

theorem parseNumber_append (t : List Char) (q : ℚ) (u : List Char)
    (h : parseNumber t = some (q, [])) :
    parseNumber (t ++ ' ' :: u) = some (q, ' ' :: u) := by
  cases t with
  | nil => rw [parseNumber_nil] at h; cases h
  | cons c t' =>
    simp only [parseNumber] at h ⊢
    rw [show c :: t' ++ ' ' :: u = (c :: t') ++ ' ' :: u from rfl]
    rw [parseSign_append_fst, parseSign_append_snd,
      span_append_not_fst Char.isDigit _ ' ' u (by decide),
      span_append_not_snd Char.isDigit _ ' ' u (by decide)]
    cases hip : (List.span Char.isDigit (parseSign (c :: t')).2).2 with
    | nil =>
      rw [hip] at h
      rw [List.nil_append]
      split at h
      · rename_i heq
        cases heq
      · -- default arm of the outer match in h
        by_cases hempty : (List.span Char.isDigit (parseSign (c :: t')).2).1.isEmpty = true
        · rw [if_pos hempty] at h; cases h
        · rw [if_neg hempty] at h
          rw [show parseExp ([] : List Char) = some ((0 : Int), []) from rfl] at h
          split at h
          · rename_i heq; cases heq
          · rename_i e rest heq
            injection heq with hpair
            rw [Prod.mk.injEq] at hpair
            obtain ⟨he, hrest⟩ := hpair
            subst he; subst hrest
            injection h with hpair2
            rw [Prod.mk.injEq] at hpair2
            obtain ⟨hval, _⟩ := hpair2
            split
            · rename_i cs3 heq2
              injection heq2 with hc1 _
              exact absurd hc1 (by decide)
            · rw [if_neg hempty, parseExp_not_e ' ' u (by decide)]
              split
              · rename_i heq3; cases heq3
              · rename_i e2 rest2 heq3
                injection heq3 with hpair3
                rw [Prod.mk.injEq] at hpair3
                obtain ⟨he2, hrest2⟩ := hpair3
                subst he2; subst hrest2
                rw [hval]
    | cons c0 w' =>
      rw [hip] at h
      rw [List.cons_append]
      by_cases hdot : c0 = '.'
      · subst hdot
        split at h
        · rename_i cs3 heq
          injection heq with _ hw
          subst hw
          by_cases hcond : (List.span Char.isDigit (parseSign (c :: t')).2).1.isEmpty = true ∧
              (List.span Char.isDigit w').1.isEmpty = true
          · rw [if_pos hcond] at h; cases h
          · rw [if_neg hcond] at h
            split at h
            · cases h
            · rename_i e rest heq2
              injection h with hpair
              rw [Prod.mk.injEq] at hpair
              obtain ⟨hval, hrest⟩ := hpair
              subst hrest
              split
              · rename_i heq3
                rw [span_append_not_fst Char.isDigit w' ' ' u (by decide)] at heq3
                exact absurd heq3 hcond
              · rw [span_append_not_fst Char.isDigit w' ' ' u (by decide),
                  span_append_not_snd Char.isDigit w' ' ' u (by decide)]
                rw [parseExp_append_full _ e u heq2]
                split
                · rename_i heq4; cases heq4
                · rename_i e2 rest2 heq4
                  injection heq4 with hpair3
                  rw [Prod.mk.injEq] at hpair3
                  obtain ⟨he2, hrest2⟩ := hpair3
                  subst he2; subst hrest2
                  rw [hval]
        · rename_i hfn
          first
          | exact hfn.elim
          | exact (hfn _ rfl).elim
      · split at h
        · rename_i cs3 heq
          injection heq with hc0 _
          exact absurd hc0 hdot
        · by_cases hempty : (List.span Char.isDigit (parseSign (c :: t')).2).1.isEmpty = true
          · rw [if_pos hempty] at h; cases h
          · rw [if_neg hempty] at h
            split at h
            · cases h
            · rename_i e rest heq2
              injection h with hpair
              rw [Prod.mk.injEq] at hpair
              obtain ⟨hval, hrest⟩ := hpair
              subst hrest
              split
              · rename_i heq3
                injection heq3 with hc0 _
                exact absurd hc0 hdot
              · rw [if_neg hempty]
                rw [show c0 :: (w' ++ ' ' :: u) = (c0 :: w') ++ ' ' :: u from rfl]
                rw [parseExp_append_full (c0 :: w') e u heq2]
                split
                · rename_i heq4; cases heq4
                · rename_i e2 rest2 heq4
                  injection heq4 with hpair3
                  rw [Prod.mk.injEq] at hpair3
                  obtain ⟨he2, hrest2⟩ := hpair3
                  subst he2; subst hrest2
                  rw [hval]


theorem parseNumber_ws_head (c : Char) (cs : List Char) (hc : isWs c = true) :
    parseNumber (c :: cs) = none := by
  have hcs : c = ' ' ∨ c = '\t' ∨ c = '\n' ∨ c = '\r' ∨ c = Char.ofNat 11 ∨ c = Char.ofNat 12 := by
    simpa [isWs] using hc
  rcases hcs with rfl | rfl | rfl | rfl | rfl | rfl <;> rfl

theorem parseNumbers_cons_ws (f : Nat) (c : Char) (X : List Char) (hc : isWs c = true) :
    parseNumbers f (c :: X) = parseNumbers f X := by
  cases f with
  | zero => rfl
  | succ f' =>
    simp only [parseNumbers]
    rw [List.dropWhile_cons_of_pos hc]

theorem parseNumbers_all_ws (f : Nat) (X : List Char) (hX : ∀ c ∈ X, isWs c = true) :
    parseNumbers f X = [] := by
  cases f with
  | zero => rfl
  | succ f' =>
    have hdrop : X.dropWhile isWs = [] := by
      induction X with
      | nil => rfl
      | cons a l ih =>
        rw [List.dropWhile_cons_of_pos (hX a (by simp))]
        exact ih (fun c hcl => hX c (List.mem_cons_of_mem a hcl))
    simp only [parseNumbers]
    rw [hdrop, parseNumber_nil]

theorem parseNumbers_chainData : ∀ (pairs : List (List Char × ℚ)) (fuel : Nat),
    pairs.length < fuel →
    (∀ p ∈ pairs, parseNumber p.1 = some (p.2, [])) →
    parseNumbers fuel (chainData pairs) = pairs.map Prod.snd := by
  intro pairs
  induction pairs with
  | nil =>
    intro fuel _ _
    exact parseNumbers_all_ws fuel [' '] (by decide)
  | cons p rest ih =>
    intro fuel hf hall
    have hp : parseNumber p.1 = some (p.2, []) := hall p (by simp)
    have hp1ne : p.1 ≠ [] := by
      intro h0
      rw [h0, parseNumber_nil] at hp
      cases hp
    obtain ⟨c0, t0, hct⟩ : ∃ c0 t0, p.1 = c0 :: t0 := by
      cases hcc : p.1 with
      | nil => exact absurd hcc hp1ne
      | cons a b => exact ⟨a, b, rfl⟩
    have hc0 : ¬ isWs c0 = true := by
      intro hcw
      rw [hct, parseNumber_ws_head c0 t0 hcw] at hp
      cases hp
    cases fuel with
    | zero => omega
    | succ f =>
      cases rest with
      | nil =>
        show parseNumbers (f + 1) (p.1 ++ [' ']) = [p.2]
        simp only [parseNumbers]
        have hdropself : (p.1 ++ [' ']).dropWhile isWs = p.1 ++ [' '] := by
          rw [hct, List.cons_append, List.dropWhile_cons_of_neg hc0]
        rw [hdropself, parseNumber_append p.1 p.2 [] hp]
        show p.2 :: parseNumbers f [' '] = [p.2]
        rw [parseNumbers_all_ws f [' '] (by decide)]
      | cons p2 rest2 =>
        show parseNumbers (f + 1) (p.1 ++ ' ' :: ' ' :: chainData (p2 :: rest2)) =
          p.2 :: (p2 :: rest2).map Prod.snd
        simp only [parseNumbers]
        have hdropself : (p.1 ++ ' ' :: ' ' :: chainData (p2 :: rest2)).dropWhile isWs =
            p.1 ++ ' ' :: ' ' :: chainData (p2 :: rest2) := by
          rw [hct, List.cons_append, List.dropWhile_cons_of_neg hc0]
        rw [hdropself, parseNumber_append p.1 p.2 (' ' :: chainData (p2 :: rest2)) hp]
        show p.2 :: parseNumbers f (' ' :: ' ' :: chainData (p2 :: rest2)) = _
        rw [parseNumbers_cons_ws f ' ' _ (by decide), parseNumbers_cons_ws f ' ' _ (by decide)]
        rw [ih f (by simp at hf ⊢; omega)
          (fun p' hp' => hall p' (List.mem_cons_of_mem p hp'))]

theorem renderElems_chain (xs : List ℚ) : ∀ x : ℚ,
    (renderElems x xs).data.map subChar ++ [' ']
      = chainData ((x :: xs).map (fun q => ((ignore_brackets (renderQ q)).data, q))) := by
  induction xs with
  | nil => intro x; rfl
  | cons y ys ih =>
    intro x
    have hdata : (renderElems x (y :: ys)).data.map subChar
        = (renderQ x).data.map subChar ++ ' ' :: ' ' ::
            (renderElems y ys).data.map subChar := by
      show (renderQ x ++ ", " ++ renderElems y ys).data.map subChar = _
      rw [String.data_append, String.data_append, List.map_append, List.map_append,
        List.append_assoc]
      rfl
    rw [hdata, List.append_assoc]
    show _ ++ (' ' :: ' ' :: ((renderElems y ys).data.map subChar ++ [' '])) = _
    rw [ih y]
    rfl

theorem ignore_render_data (x : ℚ) (xs : List ℚ) :
    (ignore_brackets (render_dvec (x :: xs))).data
      = ' ' :: chainData ((x :: xs).map (fun q => ((ignore_brackets (renderQ q)).data, q))) := by
  show (("[" ++ renderElems x xs ++ "]").data).map subChar = _
  rw [String.data_append, String.data_append, List.map_append, List.map_append,
    List.append_assoc]
  rw [← renderElems_chain xs x]
  rfl

theorem chainData_length_ge (pairs : List (List Char × ℚ))
    (h : ∀ p ∈ pairs, p.1 ≠ []) :
    pairs.length ≤ (chainData pairs).length := by
  induction pairs with
  | nil => simp [chainData]
  | cons p rest ih =>
    have hrest := ih (fun p' h' => h p' (List.mem_cons_of_mem p h'))
    have hp1 : p.1 ≠ [] := h p (by simp)
    have hp1len : 1 ≤ p.1.length := List.length_pos.mpr hp1
    cases rest with
    | nil => simp [chainData]
    | cons p2 r2 =>
      show (p2 :: r2).length + 1 ≤ (p.1 ++ ' ' :: ' ' :: chainData (p2 :: r2)).length
      rw [List.length_append]
      simp only [List.length_cons] at *
      omega

/-- C9 amended: for every vector each of whose elements' rendered token
re-parses to exactly that element, re-parsing the bracket-stripped rendering
of the whole vector yields an equal vector.  (The unconditional claim fails:
rendering keeps 6 significant digits, see the counterexample.) -/
theorem C9_amended_round_trip : ∀ v : dvec,
    (∀ q ∈ v, parseNumber ((ignore_brackets (renderQ q)).data) = some (q, [])) →
    parse_line (ignore_brackets (render_dvec v)) = v := by
  intro v hv
  cases v with
  | nil => rfl
  | cons x xs =>
    show parseNumbers ((ignore_brackets (render_dvec (x :: xs))).length + 1)
      (ignore_brackets (render_dvec (x :: xs))).data = x :: xs
    have hall : ∀ p ∈ (x :: xs).map (fun q => ((ignore_brackets (renderQ q)).data, q)),
        parseNumber p.1 = some (p.2, []) := by
      intro p hp
      obtain ⟨q, hq, rfl⟩ := List.mem_map.mp hp
      exact hv q hq
    have hlen : ((x :: xs).map (fun q => ((ignore_brackets (renderQ q)).data, q))).length <
        (ignore_brackets (render_dvec (x :: xs))).length + 1 := by
      have h1 : (ignore_brackets (render_dvec (x :: xs))).length =
          (' ' :: chainData ((x :: xs).map (fun q => ((ignore_brackets (renderQ q)).data, q)))).length := by
        show (ignore_brackets (render_dvec (x :: xs))).data.length = _
        rw [ignore_render_data]
      have h2 := chainData_length_ge
        ((x :: xs).map (fun q => ((ignore_brackets (renderQ q)).data, q)))
        (fun p hp => by
          intro h0
          have hpp := hall p hp
          rw [h0, parseNumber_nil] at hpp
          cases hpp)
      rw [h1]
      simp only [List.length_cons]
      omega
    rw [ignore_render_data, parseNumbers_cons_ws _ ' ' _ (by decide),
      parseNumbers_chainData _ _ hlen hall]
    simp [Function.comp_def]

unseal Rat.mul Rat.add Rat.inv Rat.ofScientific in
theorem C9_amended_round_trip_witness :
    (∀ q ∈ ([1, 2, 3] : dvec),
      parseNumber ((ignore_brackets (renderQ q)).data) = some (q, [])) ∧
    parse_line (ignore_brackets (render_dvec [1, 2, 3])) = [1, 2, 3] := by
  have h : ∀ q ∈ ([1, 2, 3] : dvec),
      parseNumber ((ignore_brackets (renderQ q)).data) = some (q, []) := by decide
  exact ⟨h, C9_amended_round_trip [1, 2, 3] h⟩

unseal Rat.mul Rat.add Rat.inv Rat.ofScientific in
/-- C9 counterexample: the default 6-significant-digit rendering loses
digits, so the round-trip is not the identity: `[0.1234567]` renders as
`"[0.123457]"`, which re-parses to `[0.123457]`, a different vector. -/
theorem C9_counterexample_six_digits :
    ¬ (parse_line (ignore_brackets (render_dvec [(0.1234567 : ℚ)])) = [(0.1234567 : ℚ)]) ∧
    parse_line (ignore_brackets (render_dvec [(0.1234567 : ℚ)])) = [(0.123457 : ℚ)] := by
  constructor
  · decide
  · decide

end Lab7

